import Mathlib

/-!
Shallow embedding of src/registry/Experimental/fontlink/reg_multi_sz_converter.py
(class RegMultiSzConverter): the REG_MULTI_SZ hex(7) codec.

A Python string is modelled as a list of Unicode code points (List Nat).
Each regex operation of the source is modelled by a dedicated Lean function
whose doc comment cites the regex it embeds.
-/

namespace RegMultiSz

/-- A Python string: its sequence of Unicode code points. -/
abbrev PyStr := List Nat

/-- Code points of a Lean string literal, to write concrete Python strings. -/
def strOf (s : String) : PyStr := s.data.map Char.toNat

/-- The error taxonomy of the codec: the source raises ValueError at two decode
sites (invalid fragment, UTF-16LE failure split into its odd-length and
invalid-sequence reasons) and two encode sites (empty list, unknown style);
a UnicodeEncodeError from str.encode (a ValueError subclass) propagates too. -/
inductive FormatError where
  | invalidHex (fragment : PyStr) : FormatError
  | oddByteLength : FormatError
  | invalidUtf16 : FormatError
  | emptyInput : FormatError
  | unsupportedStyle (style : PyStr) : FormatError
  | unicodeEncodeError : FormatError
deriving DecidableEq

deriving instance DecidableEq for Except

/-- The set matched by the regex class \s on a Python 3 str (exact list of
code points for which re.match(r'\s', chr(c)) succeeds). -/
def isSpace (c : Nat) : Bool :=
  (9 ≤ c ∧ c ≤ 13) ∨ (28 ≤ c ∧ c ≤ 32) ∨ c = 133 ∨ c = 160 ∨ c = 5760 ∨
  (8192 ≤ c ∧ c ≤ 8202) ∨ c = 8232 ∨ c = 8233 ∨ c = 8239 ∨ c = 8287 ∨ c = 12288

/-- ASCII lowercasing, as re.IGNORECASE acts on the letters of hex(7): . -/
def toLowerAscii (c : Nat) : Nat := if 65 ≤ c ∧ c ≤ 90 then c + 32 else c

theorem dropWhile_length_le (p : Nat → Bool) (l : List Nat) :
    (l.dropWhile p).length ≤ l.length := by
  induction l with
  | nil => simp [List.dropWhile]
  | cons c cs ih =>
    by_cases h : p c = true
    · simp [List.dropWhile, h]; omega
    · simp [List.dropWhile, h]

theorem takeWhile_length_le (p : Nat → Bool) (l : List Nat) :
    (l.takeWhile p).length ≤ l.length := by
  induction l with
  | nil => simp [List.takeWhile]
  | cons c cs ih =>
    by_cases h : p c = true
    · simp [List.takeWhile, h]; omega
    · simp [List.takeWhile, h]

/-- re.sub(r'^hex\(7\):\s*', '', s, flags=re.IGNORECASE): the pattern is
anchored at the start of the string (no MULTILINE), so it strips the tag and
the following whitespace run only when the string begins with the tag. -/
def stripTag (s : PyStr) : PyStr :=
  if (s.take 7).map toLowerAscii = strOf "hex(7):" then
    (s.drop 7).dropWhile isSpace
  else s

/-- re.sub(r'\\\s*\n\s*', '', s): scanning left to right, a backslash whose
following whitespace run contains a newline matches together with that entire
run (the greedy \s*, the \n, and the greedy trailing \s* jointly consume the
maximal whitespace run); scanning resumes after the match. -/
def removeContinuations : PyStr → PyStr
  | [] => []
  | c :: cs =>
    if c = 92 ∧ (cs.takeWhile isSpace).contains 10 then
      removeContinuations (cs.dropWhile isSpace)
    else c :: removeContinuations cs
termination_by s => s.length
decreasing_by
  · simp only [List.length_cons]
    exact Nat.lt_succ_of_le (dropWhile_length_le _ _)
  · simp

/-- re.sub(r'\\\s*$', '', s, flags=re.MULTILINE): at a backslash, with run the
maximal whitespace run following it, the pattern matches iff the run reaches
the end of the string (then backslash and run are removed) or contains a
newline (greedy backtracking: the match removes the backslash and the run up
to, not including, its last newline; scanning resumes at that newline, which
can start no further match, so it is emitted). -/
def removeTrailingBackslash : PyStr → PyStr
  | [] => []
  | c :: cs =>
    if c = 92 then
      if cs.dropWhile isSpace = [] then []
      else if (cs.takeWhile isSpace).contains 10 then
        10 :: removeTrailingBackslash
          (((cs.takeWhile isSpace).reverse.takeWhile (fun d => ¬ d = 10)).reverse
            ++ cs.dropWhile isSpace)
      else c :: removeTrailingBackslash cs
    else c :: removeTrailingBackslash cs
termination_by s => s.length
decreasing_by
  · simp only [List.length_cons, List.length_append, List.length_reverse]
    have h1 := takeWhile_length_le (fun d => decide (¬ d = 10))
      (List.takeWhile isSpace cs).reverse
    have h2 := takeWhile_length_le isSpace cs
    have h3 := dropWhile_length_le isSpace cs
    have h4 : (List.takeWhile isSpace cs).length + (List.dropWhile isSpace cs).length
        = cs.length := by
      rw [← List.length_append, List.takeWhile_append_dropWhile]
    simp only [List.length_reverse] at h1
    omega
  · simp
  · simp

/-- re.sub(r'\s', '', s): delete every whitespace character. -/
def removeWhitespace (s : PyStr) : PyStr := s.filter (fun c => ¬ isSpace c)

/-- Python str.split(sep) for a one-character separator: split on every
occurrence, keeping empty parts; the result is always non-empty. -/
def pySplit (sep : Nat) : PyStr → List PyStr
  | [] => [[]]
  | c :: cs =>
    if c = sep then [] :: pySplit sep cs
    else
      match pySplit sep cs with
      | [] => [[c]]
      | f :: fs => (c :: f) :: fs

/-- Python sep.join(parts) for list-of-code-points strings. -/
def pyJoin (sep : PyStr) : List PyStr → PyStr
  | [] => []
  | [x] => x
  | x :: xs => x ++ sep ++ pyJoin sep xs

/-- The comma-separated fragments decode works on: strip the tag, remove the
two continuation patterns, remove remaining whitespace, split on commas and
drop empty fragments (the source's per-fragment .strip() is the identity
because whitespace was already removed). -/
def hexFragments (s : PyStr) : List PyStr :=
  (pySplit 44 (removeWhitespace (removeTrailingBackslash
    (removeContinuations (stripTag s))))).filter (fun f => f ≠ [])

/-- Value of one hexadecimal digit character (0-9, a-f, A-F). -/
def hexDigitVal (c : Nat) : Option Nat :=
  if 48 ≤ c ∧ c ≤ 57 then some (c - 48)
  else if 97 ≤ c ∧ c ≤ 102 then some (c - 87)
  else if 65 ≤ c ∧ c ≤ 70 then some (c - 55)
  else none

/-- Digit loop of CPython int(s, 16): hex digits with single underscores
allowed between digits, none trailing or doubled. -/
def hexDigitsLoop : PyStr → Nat → Option Nat
  | [], acc => some acc
  | c :: cs, acc =>
    if c = 95 then
      match cs with
      | [] => none
      | d :: ds =>
        match hexDigitVal d with
        | some v => hexDigitsLoop ds (16 * acc + v)
        | none => none
    else
      match hexDigitVal c with
      | some v => hexDigitsLoop cs (16 * acc + v)
      | none => none

/-- A run of hex digits that must start with a digit (no leading underscore). -/
def parseHexDigits : PyStr → Option Nat
  | [] => none
  | c :: cs =>
    match hexDigitVal c with
    | some v => hexDigitsLoop cs v
    | none => none

/-- CPython int(s, 16) on an already whitespace-free string: optional sign,
optional 0x/0X base tag (after which one leading underscore is allowed), then
at least one ASCII hex digit with single underscores between digits.  (The
builtin additionally accepts non-ASCII decimal digit characters; the model
restricts to ASCII, which covers every string this codec produces.) -/
def pyIntHex (s : PyStr) : Option Int :=
  let signed : Int × PyStr :=
    match s with
    | 43 :: rest => (1, rest)
    | 45 :: rest => (-1, rest)
    | _ => (1, s)
  let body : Option Nat :=
    match signed.2 with
    | 48 :: 120 :: rest =>
      (match rest with
       | 95 :: rest2 => parseHexDigits rest2
       | _ => parseHexDigits rest)
    | 48 :: 88 :: rest =>
      (match rest with
       | 95 :: rest2 => parseHexDigits rest2
       | _ => parseHexDigits rest)
    | other => parseHexDigits other
  match body with
  | some v => some (signed.1 * (v : Int))
  | none => none

/-- One loop step of the source's fragment loop: int(hex_byte, 16) followed by
bytearray.append; both a failed parse and an out-of-range append raise
ValueError, caught by the same except clause, which re-raises carrying the
offending fragment. -/
def parseByteFragment (f : PyStr) : Except FormatError Nat :=
  match pyIntHex f with
  | none => .error (.invalidHex f)
  | some v => if 0 ≤ v ∧ v < 256 then .ok v.toNat else .error (.invalidHex f)

/-- The byte-collection loop over all fragments: the first failing fragment
raises, bytes are collected in order. -/
def parseFragments : List PyStr → Except FormatError (List Nat)
  | [] => .ok []
  | f :: fs =>
    match parseByteFragment f with
    | .error e => .error e
    | .ok b =>
      match parseFragments fs with
      | .error e => .error e
      | .ok bs => .ok (b :: bs)

/-- Pair consecutive bytes little-endian into UTF-16 code units; an odd byte
buffer cannot form code units (UnicodeDecodeError in the source). -/
def bytesToUnits : List Nat → Except FormatError (List Nat)
  | [] => .ok []
  | [_] => .error .oddByteLength
  | b0 :: b1 :: rest =>
    match bytesToUnits rest with
    | .error e => .error e
    | .ok us => .ok ((b0 + 256 * b1) :: us)

def isHighSurrogate (u : Nat) : Bool := 55296 ≤ u ∧ u ≤ 56319

def isLowSurrogate (u : Nat) : Bool := 56320 ≤ u ∧ u ≤ 57343

/-- UTF-16 code units to code points: a high surrogate must be followed by a
low surrogate (the pair combines), an unpaired surrogate is invalid
(UnicodeDecodeError in the source). -/
def unitsToCodePoints : List Nat → Except FormatError (List Nat)
  | [] => .ok []
  | u :: us =>
    if isHighSurrogate u then
      match us with
      | [] => .error .invalidUtf16
      | u2 :: rest =>
        if isLowSurrogate u2 then
          match unitsToCodePoints rest with
          | .error e => .error e
          | .ok cs => .ok ((65536 + 1024 * (u - 55296) + (u2 - 56320)) :: cs)
        else .error .invalidUtf16
    else if isLowSurrogate u then .error .invalidUtf16
    else
      match unitsToCodePoints us with
      | .error e => .error e
      | .ok cs => .ok (u :: cs)

/-- Python str.rstrip('\x00'): drop every trailing null code point. -/
def rstripNulls (s : PyStr) : PyStr :=
  (s.reverse.dropWhile (fun c => c = 0)).reverse

/-- The byte-buffer half of decode_hex_string: decode UTF-16LE, strip trailing
nulls, split on null, drop empty entries. -/
def decodeBytes (bytes : List Nat) : Except FormatError (List PyStr) :=
  match bytesToUnits bytes with
  | .error e => .error e
  | .ok us =>
    match unitsToCodePoints us with
    | .error e => .error e
    | .ok cps => .ok ((pySplit 0 (rstripNulls cps)).filter (fun t => t ≠ []))

/-- RegMultiSzConverter.decode_hex_string. -/
def decode_hex_string (s : PyStr) : Except FormatError (List PyStr) :=
  match parseFragments (hexFragments s) with
  | .error e => .error e
  | .ok bytes => decodeBytes bytes

/-- '\x00'.join(strings) + '\x00\x00'. -/
def combinedString (strings : List PyStr) : PyStr :=
  pyJoin [0] strings ++ [0, 0]

/-- A code point is a Unicode scalar value: what a well-formed text string
holds, and exactly the values str.encode('utf-16le') accepts. -/
def isValidScalar (c : Nat) : Bool :=
  c < 1114112 ∧ ¬ isHighSurrogate c ∧ ¬ isLowSurrogate c

/-- str.encode('utf-16le') of one code point: BMP scalars give two bytes,
supplementary scalars a surrogate pair; a lone surrogate raises
UnicodeEncodeError. -/
def utf16leEncodeCp (cp : Nat) : Except FormatError (List Nat) :=
  if isHighSurrogate cp ∨ isLowSurrogate cp then .error .unicodeEncodeError
  else if cp < 65536 then .ok [cp % 256, cp / 256]
  else if cp < 1114112 then
    .ok [(55296 + (cp - 65536) / 1024) % 256, (55296 + (cp - 65536) / 1024) / 256,
         (56320 + (cp - 65536) % 1024) % 256, (56320 + (cp - 65536) % 1024) / 256]
  else .error .unicodeEncodeError

/-- str.encode('utf-16le') over a whole string. -/
def utf16leEncode : PyStr → Except FormatError (List Nat)
  | [] => .ok []
  | c :: cs =>
    match utf16leEncodeCp c with
    | .error e => .error e
    | .ok bs =>
      match utf16leEncode cs with
      | .error e => .error e
      | .ok rest => .ok (bs ++ rest)

/-- One lowercase hex digit character, as the format f"{b:02x}" writes it. -/
def toHexDigit (n : Nat) : Nat := if n < 10 then 48 + n else 87 + n

/-- f"{b:02x}" for a byte value: exactly two lowercase hex digit characters. -/
def byteToHex (b : Nat) : PyStr := [toHexDigit (b / 16), toHexDigit (b % 16)]

/-- The regedit-style wrapping loop over the byte groups after the first:
addition is "," + group; if the running line length would exceed 75, emit
",\" + newline + two-space indent + group and reset the running length to
2 + len(group), else append and extend by 1 + len(group). -/
def regeditWrap (hexBytes : List PyStr) (lineLength : Nat) (acc : PyStr) : PyStr :=
  match hexBytes with
  | [] => acc
  | hb :: rest =>
    if lineLength + (1 + hb.length) > 75 then
      regeditWrap rest (2 + hb.length) (acc ++ [44, 92, 10, 32, 32] ++ hb)
    else
      regeditWrap rest (lineLength + (1 + hb.length)) (acc ++ 44 :: hb)

/-- RegMultiSzConverter.encode_to_hex_string on a list argument: reject the
empty list, build the double-null-terminated joined string, encode UTF-16LE,
render byte groups, then dispatch on the style string ("compact" single line,
"regedit" wrapped at 75 columns, anything else an error). -/
def encode_to_hex_string (strings : List PyStr) (format_style : PyStr) :
    Except FormatError PyStr :=
  if strings = [] then .error .emptyInput
  else
    match utf16leEncode (combinedString strings) with
    | .error e => .error e
    | .ok byteData =>
      let hexBytes := byteData.map byteToHex
      if format_style = strOf "compact" then
        .ok (strOf "hex(7):" ++ pyJoin [44] hexBytes)
      else if format_style = strOf "regedit" then
        match hexBytes with
        | [] => .ok (strOf "hex(7):")
        | hb :: rest =>
          .ok (regeditWrap rest (7 + hb.length) (strOf "hex(7):" ++ hb))
      else .error (.unsupportedStyle format_style)

/-- The isinstance(strings, str) branch of encode_to_hex_string: a single
string is promoted to a one-element list. -/
def encode_str (s : PyStr) (format_style : PyStr) : Except FormatError PyStr :=
  encode_to_hex_string [s] format_style

/-- RegMultiSzConverter.is_hex_data: re.search(r'hex\(7\):', text, IGNORECASE),
true iff the tag occurs anywhere in the text. -/
def is_hex_data (text : PyStr) : Bool :=
  (List.range text.length).any
    (fun i => ((text.drop i).take 7).map toLowerAscii = strOf "hex(7):")

/-- The physical lines of an output string: split on newline. -/
def linesOf (s : PyStr) : List PyStr := pySplit 10 s

/-- Delete every continuation marker from a wrapped output: the backslash,
newline and two-space indent (the comma that precedes the marker doubles as
the byte-group separator that the compact style also has, and stays). -/
def removeMarkers : PyStr → PyStr
  | [] => []
  | c :: cs =>
    if c = 92 ∧ cs.take 3 = [10, 32, 32] then removeMarkers (cs.drop 3)
    else c :: removeMarkers cs
termination_by s => s.length
decreasing_by
  · simp only [List.length_cons, List.length_drop]
    omega
  · simp

/-- Proof-side closed form: the UTF-16 code units of one scalar value. -/
def cpUnits (cp : Nat) : List Nat :=
  if cp < 65536 then [cp]
  else [55296 + (cp - 65536) / 1024, 56320 + (cp - 65536) % 1024]

/-- Proof-side closed form: the little-endian bytes of one 16-bit unit. -/
def unitBytes (u : Nat) : List Nat := [u % 256, u / 256]

/-- Proof-side closed form: all UTF-16 code units of a string. -/
def strUnits (s : PyStr) : List Nat := (s.map cpUnits).flatten

/-- Proof-side closed form: little-endian bytes of a unit sequence. -/
def unitsBytes (us : List Nat) : List Nat := (us.map unitBytes).flatten

/-- Proof-side closed form: the UTF-16LE byte serialization of a string. -/
def strBytes (s : PyStr) : List Nat := unitsBytes (strUnits s)

/-! ## Identity of the scrubbing passes on clean strings -/

theorem removeContinuations_append (a b : PyStr) (h : 92 ∉ a) :
    removeContinuations (a ++ b) = a ++ removeContinuations b := by
  induction a with
  | nil => simp
  | cons c a ih =>
    have hc : c ≠ 92 := fun hc => h (hc ▸ List.mem_cons_self c a)
    have ha : 92 ∉ a := fun hm => h (List.mem_cons_of_mem c hm)
    rw [List.cons_append, removeContinuations]
    simp only [hc, false_and, if_neg, not_false_eq_true]
    rw [ih ha, List.cons_append]

theorem removeContinuations_id (s : PyStr) (h : 92 ∉ s) :
    removeContinuations s = s := by
  have := removeContinuations_append s [] h
  simpa [removeContinuations] using this

theorem removeTrailingBackslash_append (a b : PyStr) (h : 92 ∉ a) :
    removeTrailingBackslash (a ++ b) = a ++ removeTrailingBackslash b := by
  induction a with
  | nil => simp
  | cons c a ih =>
    have hc : c ≠ 92 := fun hc => h (hc ▸ List.mem_cons_self c a)
    have ha : 92 ∉ a := fun hm => h (List.mem_cons_of_mem c hm)
    rw [List.cons_append, removeTrailingBackslash]
    simp only [hc, if_neg, not_false_eq_true]
    rw [ih ha, List.cons_append]

theorem removeTrailingBackslash_id (s : PyStr) (h : 92 ∉ s) :
    removeTrailingBackslash s = s := by
  have := removeTrailingBackslash_append s [] h
  simpa [removeTrailingBackslash] using this

theorem removeMarkers_append (a b : PyStr) (h : 92 ∉ a) :
    removeMarkers (a ++ b) = a ++ removeMarkers b := by
  induction a with
  | nil => simp
  | cons c a ih =>
    have hc : c ≠ 92 := fun hc => h (hc ▸ List.mem_cons_self c a)
    have ha : 92 ∉ a := fun hm => h (List.mem_cons_of_mem c hm)
    rw [List.cons_append, removeMarkers]
    simp only [hc, false_and, if_neg, not_false_eq_true]
    rw [ih ha, List.cons_append]

theorem removeWhitespace_id (s : PyStr) (h : ∀ c ∈ s, isSpace c = false) :
    removeWhitespace s = s := by
  unfold removeWhitespace
  exact List.filter_eq_self.mpr (fun c hc => by simp [h c hc])

theorem stripTag_mem (s : PyStr) (c : Nat) (h : c ∈ stripTag s) : c ∈ s := by
  unfold stripTag at h
  by_cases ht : (s.take 7).map toLowerAscii = strOf "hex(7):"
  · rw [if_pos ht] at h
    exact List.mem_of_mem_drop ((List.dropWhile_sublist isSpace).subset h)
  · rwa [if_neg ht] at h

theorem stripTag_cons_ne (c : Nat) (s : PyStr) (h : toLowerAscii c ≠ 104) :
    stripTag (c :: s) = c :: s := by
  unfold stripTag
  rw [if_neg]
  intro hc
  have : (((c :: s).take 7).map toLowerAscii).head? = some (toLowerAscii c) := by
    simp [List.take_succ_cons]
  rw [hc] at this
  have : some (toLowerAscii c) = some 104 := by
    rw [← this]; rfl
  exact h (Option.some_injective _ this)

theorem stripTag_tagged (r : PyStr) :
    stripTag (strOf "hex(7):" ++ r) = r.dropWhile isSpace := by
  unfold stripTag
  rw [if_pos]
  · have h7 : (strOf "hex(7):").length = 7 := by rfl
    rw [← h7, List.drop_left]
  · have h7 : (strOf "hex(7):").length = 7 := by rfl
    rw [← h7, List.take_left]
    rfl

/-! ## Splitting and joining -/

theorem pySplit_cons_sep (sep : Nat) (cs : PyStr) :
    pySplit sep (sep :: cs) = [] :: pySplit sep cs := by
  rw [show pySplit sep (sep :: cs)
      = if sep = sep then [] :: pySplit sep cs
        else match pySplit sep cs with
          | [] => [[sep]]
          | f :: fs => (sep :: f) :: fs from rfl]
  rw [if_pos rfl]

theorem pySplit_ne_nil (sep : Nat) (s : PyStr) : pySplit sep s ≠ [] := by
  induction s with
  | nil => simp [pySplit]
  | cons c cs ih =>
    rw [show pySplit sep (c :: cs)
        = if c = sep then [] :: pySplit sep cs
          else match pySplit sep cs with
            | [] => [[c]]
            | f :: fs => (c :: f) :: fs from rfl]
    by_cases h : c = sep
    · simp [h]
    · rw [if_neg h]
      match hs : pySplit sep cs with
      | [] => simp
      | f :: fs => simp

theorem pySplit_cons_ne (sep c : Nat) (cs : PyStr) (h : c ≠ sep) :
    pySplit sep (c :: cs) = (c :: (pySplit sep cs).headI) :: (pySplit sep cs).tail := by
  rw [show pySplit sep (c :: cs)
      = if c = sep then [] :: pySplit sep cs
        else match pySplit sep cs with
          | [] => [[c]]
          | f :: fs => (c :: f) :: fs from rfl]
  rw [if_neg h]
  match hs : pySplit sep cs with
  | [] => exact absurd hs (pySplit_ne_nil sep cs)
  | f :: fs => simp

theorem pySplit_append_nosep (sep : Nat) (a b : PyStr) (h : sep ∉ a) :
    pySplit sep (a ++ b) =
      (a ++ (pySplit sep b).headI) :: (pySplit sep b).tail := by
  induction a with
  | nil =>
    simp only [List.nil_append]
    match hb : pySplit sep b with
    | [] => exact absurd hb (pySplit_ne_nil sep b)
    | f :: fs => simp
  | cons c a ih =>
    have hc : c ≠ sep := fun hc => h (hc ▸ List.mem_cons_self c a)
    have ha : sep ∉ a := fun hm => h (List.mem_cons_of_mem c hm)
    rw [List.cons_append, pySplit_cons_ne sep c _ hc, ih ha]
    simp

theorem pySplit_pyJoin (sep : Nat) (gs : List PyStr) (hne : gs ≠ [])
    (h : ∀ g ∈ gs, sep ∉ g) : pySplit sep (pyJoin [sep] gs) = gs := by
  induction gs with
  | nil => exact absurd rfl hne
  | cons g gs ih =>
    match gs with
    | [] =>
      have hg : sep ∉ g := h g (List.mem_cons_self g [])
      show pySplit sep g = [g]
      have hthis := pySplit_append_nosep sep g [] hg
      simp only [List.append_nil] at hthis
      rw [hthis]
      simp [pySplit]
    | g2 :: gs' =>
      have hg : sep ∉ g := h g (List.mem_cons_self g _)
      have hrest : ∀ x ∈ g2 :: gs', sep ∉ x :=
        fun x hx => h x (List.mem_cons_of_mem g hx)
      show pySplit sep (g ++ [sep] ++ pyJoin [sep] (g2 :: gs')) = _
      rw [List.append_assoc, List.singleton_append,
        pySplit_append_nosep sep g _ hg, pySplit_cons_sep, ih (by simp) hrest]
      simp

theorem pyJoin_cons_flatten (sep : Nat) (g : PyStr) (gs : List PyStr) :
    pyJoin [sep] (g :: gs) = g ++ (gs.map (fun x => sep :: x)).flatten := by
  induction gs generalizing g with
  | nil => simp [pyJoin]
  | cons g2 gs ih =>
    show g ++ [sep] ++ pyJoin [sep] (g2 :: gs) = _
    rw [ih g2]
    simp

theorem pyJoin_mem (sep : PyStr) (gs : List PyStr) (c : Nat)
    (h : c ∈ pyJoin sep gs) : c ∈ sep ∨ ∃ g ∈ gs, c ∈ g := by
  induction gs with
  | nil => simp [pyJoin] at h
  | cons g gs ih =>
    match gs with
    | [] =>
      right
      exact ⟨g, List.mem_cons_self g [], h⟩
    | g2 :: gs' =>
      rw [show pyJoin sep (g :: g2 :: gs') = g ++ sep ++ pyJoin sep (g2 :: gs')
        from rfl] at h
      rcases List.mem_append.mp h with h1 | h2
      · rcases List.mem_append.mp h1 with ha | hb
        · exact Or.inr ⟨g, List.mem_cons_self g _, ha⟩
        · exact Or.inl hb
      · rcases ih h2 with ha | ⟨g', hg', hc⟩
        · exact Or.inl ha
        · exact Or.inr ⟨g', List.mem_cons_of_mem g hg', hc⟩

/-! ## Hex rendering and fragment parsing -/

theorem isSpace_false_mid (c : Nat) (h1 : 33 ≤ c) (h2 : c ≤ 132) :
    isSpace c = false := by
  simp only [isSpace, decide_eq_false_iff_not]
  omega

theorem toHexDigit_range (n : Nat) (h : n < 16) :
    (48 ≤ toHexDigit n ∧ toHexDigit n ≤ 57) ∨
    (97 ≤ toHexDigit n ∧ toHexDigit n ≤ 102) := by
  unfold toHexDigit
  split <;> omega

theorem toHexDigit_ne_nl (n : Nat) : toHexDigit n ≠ 10 := by
  unfold toHexDigit
  split <;> omega

theorem byteToHex_mem_range (b c : Nat) (hb : b < 256) (h : c ∈ byteToHex b) :
    (48 ≤ c ∧ c ≤ 57) ∨ (97 ≤ c ∧ c ≤ 102) := by
  simp only [byteToHex, List.mem_cons, List.not_mem_nil, or_false] at h
  rcases h with rfl | rfl
  · exact toHexDigit_range (b / 16) (by omega)
  · exact toHexDigit_range (b % 16) (by omega)

theorem byteToHex_clean (b c : Nat) (hb : b < 256) (h : c ∈ byteToHex b) :
    isSpace c = false ∧ c ≠ 92 ∧ c ≠ 44 ∧ c ≠ 0 ∧ c ≠ 10 := by
  rcases byteToHex_mem_range b c hb h with ⟨h1, h2⟩ | ⟨h1, h2⟩ <;>
    exact ⟨isSpace_false_mid c (by omega) (by omega),
      by omega, by omega, by omega, by omega⟩

theorem byteToHex_ne_nil (b : Nat) : byteToHex b ≠ [] := by
  unfold byteToHex
  simp

set_option maxRecDepth 8000 in
theorem parseByteFragment_byteToHex :
    ∀ b, b < 256 → parseByteFragment (byteToHex b) = .ok b := by decide

theorem parseFragments_map_byteToHex (bs : List Nat) (h : ∀ b ∈ bs, b < 256) :
    parseFragments (bs.map byteToHex) = .ok bs := by
  induction bs with
  | nil => rfl
  | cons b bs ih =>
    have hb := h b (List.mem_cons_self b bs)
    have hbs : ∀ x ∈ bs, x < 256 := fun x hx => h x (List.mem_cons_of_mem b hx)
    rw [List.map_cons]
    show (match parseByteFragment (byteToHex b) with
      | Except.error e => Except.error e
      | Except.ok v =>
        match parseFragments (bs.map byteToHex) with
        | Except.error e => Except.error e
        | Except.ok vs => Except.ok (v :: vs)) = _
    rw [parseByteFragment_byteToHex b hb, ih hbs]

/-! ## Fragment extraction on clean inputs -/

theorem hexFragments_no_backslash (s : PyStr) (h : 92 ∉ s) :
    hexFragments s
      = (pySplit 44 (removeWhitespace (stripTag s))).filter (fun f => f ≠ []) := by
  have h' : 92 ∉ stripTag s := fun hm => h (stripTag_mem s 92 hm)
  unfold hexFragments
  rw [removeContinuations_id _ h', removeTrailingBackslash_id _ h']

theorem hexFragments_tagged (gs : List PyStr) (hne : gs ≠ [])
    (hgood : ∀ g ∈ gs, g ≠ [] ∧ ∀ c ∈ g, isSpace c = false ∧ c ≠ 92 ∧ c ≠ 44) :
    hexFragments (strOf "hex(7):" ++ pyJoin [44] gs) = gs := by
  have htag92 : ∀ c ∈ strOf "hex(7):", c ≠ 92 := by decide
  have h92 : 92 ∉ strOf "hex(7):" ++ pyJoin [44] gs := by
    intro hm
    rcases List.mem_append.mp hm with hm | hm
    · exact htag92 92 hm rfl
    · rcases pyJoin_mem [44] gs 92 hm with hs | ⟨g, hg, hc⟩
      · simp at hs
      · exact ((hgood g hg).2 92 hc).2.1 rfl
  rw [hexFragments_no_backslash _ h92, stripTag_tagged]
  have hdrop : (pyJoin [44] gs).dropWhile isSpace = pyJoin [44] gs := by
    match gs, hne with
    | g :: gs', _ =>
      rw [pyJoin_cons_flatten]
      match g, (hgood g (List.mem_cons_self g gs')).1 with
      | c :: g', _ =>
        rw [List.cons_append, List.dropWhile_cons]
        rw [((hgood (c :: g') (List.mem_cons_self _ gs')).2 c
          (List.mem_cons_self c g')).1]
        simp
  rw [hdrop]
  have hws : removeWhitespace (pyJoin [44] gs) = pyJoin [44] gs := by
    apply removeWhitespace_id
    intro c hc
    rcases pyJoin_mem [44] gs c hc with hs | ⟨g, hg, hcg⟩
    · simp at hs
      rw [hs]
      exact isSpace_false_mid 44 (by omega) (by omega)
    · exact ((hgood g hg).2 c hcg).1
  rw [hws, pySplit_pyJoin 44 gs hne (fun g hg hcg =>
    ((hgood g hg).2 44 hcg).2.2 rfl)]
  exact List.filter_eq_self.mpr (fun g hg => by simp [(hgood g hg).1])

/-! ## The multi-string tail of decode -/

theorem rstripNulls_append_nulls (xs : PyStr) :
    rstripNulls (xs ++ [0, 0]) = rstripNulls xs := by
  unfold rstripNulls
  rw [List.reverse_append]
  simp [List.dropWhile]

theorem rstripNulls_concat_ne (ys : PyStr) (y : Nat) (hy : y ≠ 0) :
    rstripNulls (ys ++ [y]) = ys ++ [y] := by
  unfold rstripNulls
  rw [List.reverse_append]
  simp [List.dropWhile, hy]

theorem pyJoin_zero_concat (L : List PyStr) (hne : L ≠ [])
    (h : ∀ s ∈ L, s ≠ []) (hz : ∀ s ∈ L, 0 ∉ s) :
    ∃ p c, pyJoin [0] L = p ++ [c] ∧ c ≠ 0 := by
  induction L with
  | nil => exact absurd rfl hne
  | cons e L ih =>
    match L with
    | [] =>
      have he : e ≠ [] := h e (List.mem_cons_self e [])
      refine ⟨e.dropLast, e.getLast he, ?_, ?_⟩
      · show e = _
        exact (List.dropLast_append_getLast he).symm
      · exact fun h0 => hz e (List.mem_cons_self e []) (h0 ▸ List.getLast_mem he)
    | e2 :: L' =>
      obtain ⟨p, c, hp, hc⟩ := ih (by simp)
        (fun s hs => h s (List.mem_cons_of_mem e hs))
        (fun s hs => hz s (List.mem_cons_of_mem e hs))
      refine ⟨e ++ 0 :: p, c, ?_, hc⟩
      show e ++ [0] ++ pyJoin [0] (e2 :: L') = _
      rw [hp]
      simp

theorem decode_multisz_tail (L : List PyStr) (hne : L ≠ [])
    (h : ∀ s ∈ L, s ≠ []) (hz : ∀ s ∈ L, 0 ∉ s) :
    (pySplit 0 (rstripNulls (pyJoin [0] L ++ [0, 0]))).filter (fun t => t ≠ [])
      = L := by
  rw [rstripNulls_append_nulls]
  obtain ⟨p, c, hp, hc⟩ := pyJoin_zero_concat L hne h hz
  rw [hp, rstripNulls_concat_ne p c hc, ← hp, pySplit_pyJoin 0 L hne hz]
  exact List.filter_eq_self.mpr (fun s hs => by simp [h s hs])

/-! ## UTF-16LE round trip -/

theorem isValidScalar_elim (cp : Nat) (hv : isValidScalar cp = true) :
    cp < 1114112 ∧ ¬ (55296 ≤ cp ∧ cp ≤ 56319) ∧ ¬ (56320 ≤ cp ∧ cp ≤ 57343) := by
  simp only [isValidScalar, isHighSurrogate, isLowSurrogate,
    decide_eq_true_eq, Bool.not_eq_true', decide_eq_false_iff_not] at hv
  exact hv

theorem unitsBytes_cons (u : Nat) (us : List Nat) :
    unitsBytes (u :: us) = u % 256 :: u / 256 :: unitsBytes us := by
  simp [unitsBytes, unitBytes]

theorem unitsBytes_append (a b : List Nat) :
    unitsBytes (a ++ b) = unitsBytes a ++ unitsBytes b := by
  simp [unitsBytes]

theorem strUnits_cons (c : Nat) (cs : PyStr) :
    strUnits (c :: cs) = cpUnits c ++ strUnits cs := by
  simp [strUnits]

theorem utf16leEncodeCp_eq (cp : Nat) (hv : isValidScalar cp = true) :
    utf16leEncodeCp cp = .ok (unitsBytes (cpUnits cp)) := by
  obtain ⟨h1, h2, h3⟩ := isValidScalar_elim cp hv
  unfold utf16leEncodeCp cpUnits
  by_cases hc : cp < 65536
  · rw [if_neg, if_pos hc, if_pos hc]
    · simp [unitsBytes, unitBytes]
    · simp only [isHighSurrogate, isLowSurrogate]
      simp only [decide_eq_true_eq]
      omega
  · rw [if_neg, if_neg hc, if_pos (by omega), if_neg hc]
    · simp [unitsBytes, unitBytes]
    · simp only [isHighSurrogate, isLowSurrogate]
      simp only [decide_eq_true_eq]
      omega

theorem utf16leEncode_eq (s : PyStr) (hv : ∀ c ∈ s, isValidScalar c = true) :
    utf16leEncode s = .ok (strBytes s) := by
  induction s with
  | nil => rfl
  | cons c cs ih =>
    show (match utf16leEncodeCp c with
      | Except.error e => Except.error e
      | Except.ok bs =>
        match utf16leEncode cs with
        | Except.error e => Except.error e
        | Except.ok rest => Except.ok (bs ++ rest)) = _
    rw [utf16leEncodeCp_eq c (hv c (List.mem_cons_self c cs)),
      ih (fun x hx => hv x (List.mem_cons_of_mem c hx))]
    show Except.ok _ = _
    unfold strBytes
    rw [strUnits_cons, unitsBytes_append]

theorem bytesToUnits_unitsBytes (us : List Nat) :
    bytesToUnits (unitsBytes us) = .ok us := by
  induction us with
  | nil => rfl
  | cons u us ih =>
    rw [unitsBytes_cons]
    show (match bytesToUnits (unitsBytes us) with
      | Except.error e => Except.error e
      | Except.ok vs => Except.ok ((u % 256 + 256 * (u / 256)) :: vs)) = _
    rw [ih]
    show Except.ok _ = _
    rw [Nat.mod_add_div u 256]

theorem cpUnits_lt (cp : Nat) (hv : isValidScalar cp = true) :
    ∀ u ∈ cpUnits cp, u < 65536 := by
  obtain ⟨h1, h2, h3⟩ := isValidScalar_elim cp hv
  intro u hu
  unfold cpUnits at hu
  by_cases hc : cp < 65536
  · rw [if_pos hc] at hu
    simp at hu
    omega
  · rw [if_neg hc] at hu
    simp only [List.mem_cons, List.not_mem_nil, or_false] at hu
    rcases hu with h | h <;> omega

theorem unitsToCodePoints_cons (u : Nat) (us : List Nat) :
    unitsToCodePoints (u :: us) =
      if isHighSurrogate u then
        match us with
        | [] => Except.error FormatError.invalidUtf16
        | u2 :: rest =>
          if isLowSurrogate u2 then
            match unitsToCodePoints rest with
            | Except.error e => Except.error e
            | Except.ok cs =>
              Except.ok ((65536 + 1024 * (u - 55296) + (u2 - 56320)) :: cs)
          else Except.error FormatError.invalidUtf16
      else if isLowSurrogate u then Except.error FormatError.invalidUtf16
      else
        match unitsToCodePoints us with
        | Except.error e => Except.error e
        | Except.ok cs => Except.ok (u :: cs) := by
  rw [unitsToCodePoints.eq_def]

theorem unitsToCodePoints_strUnits (s : PyStr)
    (hv : ∀ c ∈ s, isValidScalar c = true) :
    unitsToCodePoints (strUnits s) = .ok s := by
  induction s with
  | nil => rfl
  | cons c cs ih =>
    obtain ⟨h1, h2, h3⟩ := isValidScalar_elim c (hv c (List.mem_cons_self c cs))
    have ihr := ih (fun x hx => hv x (List.mem_cons_of_mem c hx))
    rw [strUnits_cons]
    unfold cpUnits
    by_cases hc : c < 65536
    · rw [if_pos hc, List.singleton_append, unitsToCodePoints_cons]
      have hh : isHighSurrogate c = false := by
        simp only [isHighSurrogate, decide_eq_false_iff_not]
        omega
      have hl : isLowSurrogate c = false := by
        simp only [isLowSurrogate, decide_eq_false_iff_not]
        omega
      rw [hh, hl]
      simp only [Bool.false_eq_true, if_false, ihr]
    · rw [if_neg hc, List.cons_append, List.cons_append, List.nil_append,
        unitsToCodePoints_cons]
      have hh : isHighSurrogate (55296 + (c - 65536) / 1024) = true := by
        simp only [isHighSurrogate, decide_eq_true_eq]
        omega
      have hl : isLowSurrogate (56320 + (c - 65536) % 1024) = true := by
        simp only [isLowSurrogate, decide_eq_true_eq]
        omega
      rw [hh]
      simp only [if_true]
      rw [hl]
      simp only [if_true, ihr]
      have hcomb : 65536 + 1024 * (55296 + (c - 65536) / 1024 - 55296)
          + (56320 + (c - 65536) % 1024 - 56320) = c := by omega
      rw [hcomb]

theorem strBytes_lt (s : PyStr) (hv : ∀ c ∈ s, isValidScalar c = true) :
    ∀ b ∈ strBytes s, b < 256 := by
  intro b hb
  unfold strBytes unitsBytes at hb
  rcases List.mem_flatten.mp hb with ⟨l, hl, hbl⟩
  rcases List.mem_map.mp hl with ⟨u, hu, rfl⟩
  have hu16 : u < 65536 := by
    unfold strUnits at hu
    rcases List.mem_flatten.mp hu with ⟨l2, hl2, hul⟩
    rcases List.mem_map.mp hl2 with ⟨cp, hcp, rfl⟩
    exact cpUnits_lt cp (hv cp hcp) u hul
  unfold unitBytes at hbl
  simp only [List.mem_cons, List.not_mem_nil, or_false] at hbl
  rcases hbl with rfl | rfl <;> omega

theorem strBytes_ne_nil (s : PyStr) (h : s ≠ []) : strBytes s ≠ [] := by
  match s, h with
  | c :: cs, _ =>
    unfold strBytes
    rw [strUnits_cons]
    unfold cpUnits
    by_cases hc : c < 65536
    · rw [if_pos hc, List.singleton_append, unitsBytes_cons]
      simp
    · rw [if_neg hc, List.cons_append, unitsBytes_cons]
      simp

theorem combined_valid (L : List PyStr)
    (hv : ∀ s ∈ L, ∀ c ∈ s, isValidScalar c = true) :
    ∀ c ∈ combinedString L, isValidScalar c = true := by
  intro c hc
  unfold combinedString at hc
  rcases List.mem_append.mp hc with hm | hm
  · rcases pyJoin_mem [0] L c hm with hs | ⟨g, hg, hcg⟩
    · simp at hs
      rw [hs]
      decide
    · exact hv g hg c hcg
  · simp only [List.mem_cons, List.not_mem_nil, or_false] at hm
    rcases hm with rfl | rfl <;> decide

/-! ## Structure of the regedit-wrapped output -/

theorem regeditWrap_acc (bs : List PyStr) (n : Nat) (a x : PyStr) :
    regeditWrap bs n (a ++ x) = a ++ regeditWrap bs n x := by
  induction bs generalizing n x with
  | nil => rfl
  | cons hb rest ih =>
    show (if n + (1 + hb.length) > 75 then
        regeditWrap rest (2 + hb.length) ((a ++ x) ++ [44, 92, 10, 32, 32] ++ hb)
      else regeditWrap rest (n + (1 + hb.length)) ((a ++ x) ++ 44 :: hb))
      = a ++ (if n + (1 + hb.length) > 75 then
        regeditWrap rest (2 + hb.length) (x ++ [44, 92, 10, 32, 32] ++ hb)
      else regeditWrap rest (n + (1 + hb.length)) (x ++ 44 :: hb))
    by_cases hc : n + (1 + hb.length) > 75
    · rw [if_pos hc, if_pos hc, List.append_assoc a x, List.append_assoc a,
        ih (2 + hb.length) (x ++ [44, 92, 10, 32, 32] ++ hb)]
    · rw [if_neg hc, if_neg hc, List.append_assoc a x,
        ih (n + (1 + hb.length)) (x ++ 44 :: hb)]

theorem rc_nil : removeContinuations [] = [] :=
  removeContinuations_id [] (by simp)

theorem rm_nil : removeMarkers [] = [] := by
  rw [removeMarkers.eq_def]

theorem rc_cons_ne (c : Nat) (cs : PyStr) (h : c ≠ 92) :
    removeContinuations (c :: cs) = c :: removeContinuations cs := by
  have h92 : 92 ∉ [c] := by
    simp only [List.mem_singleton]
    omega
  have := removeContinuations_append [c] cs h92
  simpa using this

theorem rc_cons_92 (cs : PyStr)
    (h10 : (cs.takeWhile isSpace).contains 10 = true) :
    removeContinuations (92 :: cs)
      = removeContinuations (cs.dropWhile isSpace) := by
  have h10m : 10 ∈ cs.takeWhile isSpace := by simpa using h10
  rw [removeContinuations.eq_def]
  simp [h10, h10m]

theorem rc_wrap_chunk (c : Nat) (hb' T : PyStr) (hsp : isSpace c = false)
    (h92 : 92 ∉ c :: hb') :
    removeContinuations (44 :: 92 :: 10 :: 32 :: 32 :: ((c :: hb') ++ T))
      = (44 :: c :: hb') ++ removeContinuations T := by
  rw [rc_cons_ne 44 _ (by omega), rc_cons_92]
  · have hd : List.dropWhile isSpace (10 :: 32 :: 32 :: ((c :: hb') ++ T))
        = (c :: hb') ++ T := by
      rw [List.cons_append, List.dropWhile_cons,
        if_pos (show isSpace 10 = true from rfl), List.dropWhile_cons,
        if_pos (show isSpace 32 = true from rfl), List.dropWhile_cons,
        if_pos (show isSpace 32 = true from rfl), List.dropWhile_cons]
      simp [hsp]
    rw [hd, removeContinuations_append _ _ h92]
    simp
  · have ht : List.takeWhile isSpace (10 :: 32 :: 32 :: ((c :: hb') ++ T))
        = [10, 32, 32] := by
      rw [List.cons_append, List.takeWhile_cons,
        if_pos (show isSpace 10 = true from rfl), List.takeWhile_cons,
        if_pos (show isSpace 32 = true from rfl), List.takeWhile_cons,
        if_pos (show isSpace 32 = true from rfl), List.takeWhile_cons]
      simp [hsp]
    rw [ht]
    rfl

theorem rc_wrapTail (bs : List PyStr) (n : Nat)
    (hg : ∀ hb ∈ bs, hb ≠ [] ∧ isSpace hb.headI = false ∧ 92 ∉ hb) :
    removeContinuations (regeditWrap bs n [])
      = (bs.map (fun hb => 44 :: hb)).flatten := by
  induction bs generalizing n with
  | nil =>
    rw [show regeditWrap [] n [] = [] from rfl, rc_nil]
    rfl
  | cons hb rest ih =>
    obtain ⟨hne, hsp, h92⟩ := hg hb (List.mem_cons_self hb rest)
    have hgr : ∀ x ∈ rest, x ≠ [] ∧ isSpace x.headI = false ∧ 92 ∉ x :=
      fun x hx => hg x (List.mem_cons_of_mem hb hx)
    match hb, hne with
    | c :: hb', _ =>
      show removeContinuations (if n + (1 + (c :: hb').length) > 75 then
          regeditWrap rest (2 + (c :: hb').length)
            ([] ++ [44, 92, 10, 32, 32] ++ (c :: hb'))
        else regeditWrap rest (n + (1 + (c :: hb').length)) ([] ++ 44 :: c :: hb'))
        = _
      have hsp' : isSpace c = false := hsp
      by_cases hc : n + (1 + (c :: hb').length) > 75
      · rw [if_pos hc, List.nil_append]
        have hacc := regeditWrap_acc rest (2 + (c :: hb').length)
          ([44, 92, 10, 32, 32] ++ (c :: hb')) []
        rw [List.append_nil] at hacc
        rw [hacc, List.append_assoc]
        show removeContinuations (44 :: 92 :: 10 :: 32 :: 32 ::
          ((c :: hb') ++ regeditWrap rest (2 + (c :: hb').length) [])) = _
        rw [rc_wrap_chunk c hb' _ hsp' h92, ih _ hgr]
        simp
      · rw [if_neg hc, List.nil_append]
        have hacc := regeditWrap_acc rest (n + (1 + (c :: hb').length))
          (44 :: c :: hb') []
        rw [List.append_nil] at hacc
        rw [hacc]
        have h92' : 92 ∉ 44 :: c :: hb' := by
          intro hm
          rcases List.mem_cons.mp hm with h44 | hm'
          · omega
          · exact h92 hm'
        rw [removeContinuations_append _ _ h92', ih _ hgr]
        simp

theorem rm_marker (cs : PyStr) :
    removeMarkers (92 :: 10 :: 32 :: 32 :: cs) = removeMarkers cs := by
  rw [removeMarkers.eq_def]
  simp

theorem rm_cons_ne (c : Nat) (cs : PyStr) (h : c ≠ 92) :
    removeMarkers (c :: cs) = c :: removeMarkers cs := by
  have h92 : 92 ∉ [c] := by
    simp only [List.mem_singleton]
    omega
  have := removeMarkers_append [c] cs h92
  simpa using this

theorem rm_wrapTail (bs : List PyStr) (n : Nat)
    (hg : ∀ hb ∈ bs, 92 ∉ hb) :
    removeMarkers (regeditWrap bs n [])
      = (bs.map (fun hb => 44 :: hb)).flatten := by
  induction bs generalizing n with
  | nil =>
    rw [show regeditWrap [] n [] = [] from rfl, rm_nil]
    rfl
  | cons hb rest ih =>
    have h92 := hg hb (List.mem_cons_self hb rest)
    have hgr : ∀ x ∈ rest, 92 ∉ x := fun x hx => hg x (List.mem_cons_of_mem hb hx)
    show removeMarkers (if n + (1 + hb.length) > 75 then
        regeditWrap rest (2 + hb.length) ([] ++ [44, 92, 10, 32, 32] ++ hb)
      else regeditWrap rest (n + (1 + hb.length)) ([] ++ 44 :: hb)) = _
    by_cases hc : n + (1 + hb.length) > 75
    · rw [if_pos hc, List.nil_append]
      have hacc := regeditWrap_acc rest (2 + hb.length)
        ([44, 92, 10, 32, 32] ++ hb) []
      rw [List.append_nil] at hacc
      rw [hacc, List.append_assoc]
      show removeMarkers (44 :: 92 :: 10 :: 32 :: 32 ::
        (hb ++ regeditWrap rest (2 + hb.length) [])) = _
      rw [rm_cons_ne 44 _ (by omega), rm_marker,
        removeMarkers_append _ _ h92, ih _ hgr]
      simp
    · rw [if_neg hc, List.nil_append]
      have hacc := regeditWrap_acc rest (n + (1 + hb.length)) (44 :: hb) []
      rw [List.append_nil] at hacc
      rw [hacc]
      have h92' : 92 ∉ 44 :: hb := by
        intro hm
        rcases List.mem_cons.mp hm with h44 | hm'
        · omega
        · exact h92 hm'
      rw [removeMarkers_append _ _ h92', ih _ hgr]
      simp

/-! ## Physical lines of the wrapped output -/

theorem pySplit_nosep (sep : Nat) (z : PyStr) (h : sep ∉ z) :
    pySplit sep z = [z] := by
  have := pySplit_append_nosep sep z [] h
  simpa [pySplit] using this

theorem pySplit_append_free (sep : Nat) (y : PyStr) (hy : sep ∉ y) :
    ∀ x done cur, pySplit sep x = done ++ [cur] →
      pySplit sep (x ++ y) = done ++ [cur ++ y] := by
  intro x
  induction x with
  | nil =>
    intro done cur hx
    have hx' : [([] : PyStr)] = done ++ [cur] := by simpa [pySplit] using hx
    cases done with
    | nil =>
      have hcur : ([] : PyStr) = cur := by simpa using hx'
      rw [List.nil_append, pySplit_nosep sep y hy, ← hcur]
      simp
    | cons d ds =>
      exfalso
      rw [List.cons_append] at hx'
      have htl : ([] : List PyStr) = ds ++ [cur] := by
        have := congrArg List.tail hx'
        simpa using this
      simp at htl
  | cons c x ih =>
    intro done cur hx
    by_cases hc : c = sep
    · subst hc
      rw [pySplit_cons_sep] at hx
      cases done with
      | nil =>
        exfalso
        have htl : pySplit c x = ([] : List PyStr) := by
          have := congrArg List.tail hx
          simpa using this
        exact pySplit_ne_nil c x htl
      | cons d ds =>
        rw [List.cons_append] at hx
        have hd : ([] : PyStr) = d := by
          have := congrArg List.headI hx
          simpa using this
        have hrest : pySplit c x = ds ++ [cur] := by
          have := congrArg List.tail hx
          simpa using this
        rw [List.cons_append, pySplit_cons_sep, ih ds cur hrest, ← hd]
        rfl
    · rw [pySplit_cons_ne sep c x hc] at hx
      match hP : pySplit sep x with
      | [] => exact absurd hP (pySplit_ne_nil sep x)
      | f :: fs =>
        rw [hP] at hx
        simp only [List.headI_cons, List.tail_cons] at hx
        cases done with
        | nil =>
          have hcur : c :: f = cur := by
            have := congrArg List.headI hx
            simpa using this
          have hfs : fs = ([] : List PyStr) := by
            have := congrArg List.tail hx
            simpa using this
          rw [List.cons_append, pySplit_cons_ne sep c _ hc,
            ih [] f (by rw [hP, hfs]; rfl)]
          rw [← hcur]
          simp
        | cons d ds =>
          rw [List.cons_append] at hx
          have hd : c :: f = d := by
            have := congrArg List.headI hx
            simpa using this
          have hrest : fs = ds ++ [cur] := by
            have := congrArg List.tail hx
            simpa using this
          rw [List.cons_append, pySplit_cons_ne sep c _ hc,
            ih (f :: ds) cur (by rw [hP, hrest]; rfl)]
          rw [← hd]
          simp

theorem pySplit_append_sep (sep : Nat) :
    ∀ x, pySplit sep (x ++ [sep]) = pySplit sep x ++ [[]] := by
  intro x
  induction x with
  | nil =>
    rw [List.nil_append, pySplit_cons_sep]
    rfl
  | cons c x ih =>
    by_cases hc : c = sep
    · subst hc
      rw [List.cons_append, pySplit_cons_sep, pySplit_cons_sep, ih]
      rfl
    · rw [List.cons_append, pySplit_cons_ne sep c _ hc, ih,
        pySplit_cons_ne sep c _ hc]
      match hP : pySplit sep x with
      | [] => exact absurd hP (pySplit_ne_nil sep x)
      | f :: fs => simp

theorem wrap_lines_bound (bs : List PyStr) :
    ∀ n x done cur,
      (∀ hb ∈ bs, hb.length = 2 ∧ (10 : Nat) ∉ hb) →
      pySplit 10 x = done ++ [cur] →
      (∀ l ∈ done, l.length ≤ 77) →
      cur.length = n → n ≤ 75 →
      ∀ l ∈ pySplit 10 (regeditWrap bs n x), l.length ≤ 77 := by
  induction bs with
  | nil =>
    intro n x done cur _ hx hdone hcur hn l hl
    rw [show regeditWrap [] n x = x from rfl, hx] at hl
    rcases List.mem_append.mp hl with h | h
    · exact hdone l h
    · simp only [List.mem_singleton] at h
      subst h
      omega
  | cons hb rest ih =>
    intro n x done cur hg hx hdone hcur hn l hl
    obtain ⟨hlen, h10⟩ := hg hb (List.mem_cons_self hb rest)
    have hgr : ∀ g ∈ rest, g.length = 2 ∧ (10 : Nat) ∉ g :=
      fun g hgm => hg g (List.mem_cons_of_mem hb hgm)
    rw [show regeditWrap (hb :: rest) n x
      = (if n + (1 + hb.length) > 75 then
          regeditWrap rest (2 + hb.length) (x ++ [44, 92, 10, 32, 32] ++ hb)
        else regeditWrap rest (n + (1 + hb.length)) (x ++ 44 :: hb))
      from rfl] at hl
    by_cases hc : n + (1 + hb.length) > 75
    · rw [if_pos hc] at hl
      have h1 : pySplit 10 (x ++ [44, 92]) = done ++ [cur ++ [44, 92]] :=
        pySplit_append_free 10 [44, 92] (by decide) x done cur hx
      have h2 : pySplit 10 ((x ++ [44, 92]) ++ [10])
          = (done ++ [cur ++ [44, 92]]) ++ [[]] := by
        rw [pySplit_append_sep 10 (x ++ [44, 92]), h1]
      have h3 : pySplit 10 (x ++ [44, 92, 10, 32, 32] ++ hb)
          = (done ++ [cur ++ [44, 92]]) ++ [[32, 32] ++ hb] := by
        have hsh : x ++ [44, 92, 10, 32, 32] ++ hb
            = ((x ++ [44, 92]) ++ [10]) ++ ([32, 32] ++ hb) := by
          simp
        rw [hsh, pySplit_append_free 10 ([32, 32] ++ hb)
          (by simp [h10]) _ _ [] h2]
        simp
      refine ih (2 + hb.length) _ (done ++ [cur ++ [44, 92]]) ([32, 32] ++ hb)
        hgr h3 ?_ (by simp; omega) (by omega) l hl
      intro l2 hl2
      rcases List.mem_append.mp hl2 with h | h
      · exact hdone l2 h
      · simp only [List.mem_singleton] at h
        subst h
        simp only [List.length_append, List.length_cons, List.length_nil]
        omega
    · rw [if_neg hc] at hl
      have h1 : pySplit 10 (x ++ 44 :: hb) = done ++ [cur ++ 44 :: hb] :=
        pySplit_append_free 10 (44 :: hb)
          (by simp [h10]) x done cur hx
      refine ih (n + (1 + hb.length)) _ done (cur ++ 44 :: hb)
        hgr h1 hdone (by simp; omega) (by omega) l hl

/-! ## Unfolding encode and decoding its output -/

theorem encode_compact_eq (L : List PyStr) (bytes : List Nat) (hne : L ≠ [])
    (henc : utf16leEncode (combinedString L) = .ok bytes) :
    encode_to_hex_string L (strOf "compact")
      = .ok (strOf "hex(7):" ++ pyJoin [44] (bytes.map byteToHex)) := by
  unfold encode_to_hex_string
  rw [if_neg hne, henc]
  show (if strOf "compact" = strOf "compact" then
      Except.ok (strOf "hex(7):" ++ pyJoin [44] (List.map byteToHex bytes))
    else if strOf "compact" = strOf "regedit" then
      match List.map byteToHex bytes with
      | [] => Except.ok (strOf "hex(7):")
      | hb :: rest =>
        Except.ok (regeditWrap rest (7 + List.length hb) (strOf "hex(7):" ++ hb))
    else Except.error (FormatError.unsupportedStyle (strOf "compact"))) = _
  rw [if_pos rfl]

theorem encode_regedit_eq (L : List PyStr) (bytes : List Nat) (hne : L ≠ [])
    (henc : utf16leEncode (combinedString L) = .ok bytes)
    (hb : PyStr) (rest : List PyStr) (hmap : bytes.map byteToHex = hb :: rest) :
    encode_to_hex_string L (strOf "regedit")
      = .ok (regeditWrap rest (7 + hb.length) (strOf "hex(7):" ++ hb)) := by
  unfold encode_to_hex_string
  rw [if_neg hne, henc]
  show (if strOf "regedit" = strOf "compact" then _
    else if strOf "regedit" = strOf "regedit" then
      match bytes.map byteToHex with
      | [] => Except.ok (strOf "hex(7):")
      | hb :: rest =>
        Except.ok (regeditWrap rest (7 + hb.length) (strOf "hex(7):" ++ hb))
    else _) = _
  rw [if_neg (by decide), if_pos rfl, hmap]

theorem fragments_pipeline (gs : List PyStr) (hne : gs ≠ [])
    (hgood : ∀ g ∈ gs, g ≠ [] ∧ ∀ c ∈ g, isSpace c = false ∧ c ≠ 92 ∧ c ≠ 44) :
    (pySplit 44 (removeWhitespace (removeTrailingBackslash
      (pyJoin [44] gs)))).filter (fun f => f ≠ []) = gs := by
  have h92 : 92 ∉ pyJoin [44] gs := by
    intro hm
    rcases pyJoin_mem [44] gs 92 hm with hs | ⟨g, hg, hc⟩
    · simp at hs
    · exact ((hgood g hg).2 92 hc).2.1 rfl
  rw [removeTrailingBackslash_id _ h92]
  have hws : removeWhitespace (pyJoin [44] gs) = pyJoin [44] gs := by
    apply removeWhitespace_id
    intro c hc
    rcases pyJoin_mem [44] gs c hc with hs | ⟨g, hg, hcg⟩
    · simp at hs
      rw [hs]
      exact isSpace_false_mid 44 (by omega) (by omega)
    · exact ((hgood g hg).2 c hcg).1
  rw [hws, pySplit_pyJoin 44 gs hne (fun g hg hcg =>
    ((hgood g hg).2 44 hcg).2.2 rfl)]
  exact List.filter_eq_self.mpr (fun g hg => by simp [(hgood g hg).1])

theorem byteToHex_good (b : Nat) (hb : b < 256) :
    byteToHex b ≠ [] ∧
      ∀ c ∈ byteToHex b, isSpace c = false ∧ c ≠ 92 ∧ c ≠ 44 := by
  refine ⟨byteToHex_ne_nil b, fun c hc => ?_⟩
  obtain ⟨h1, h2, h3, _, _⟩ := byteToHex_clean b c hb hc
  exact ⟨h1, h2, h3⟩

theorem hexFragments_encode_compact (bytes : List Nat) (hne : bytes ≠ [])
    (hlt : ∀ b ∈ bytes, b < 256) :
    hexFragments (strOf "hex(7):" ++ pyJoin [44] (bytes.map byteToHex))
      = bytes.map byteToHex := by
  apply hexFragments_tagged
  · simp [hne]
  · intro g hg
    rcases List.mem_map.mp hg with ⟨b, hb, rfl⟩
    exact byteToHex_good b (hlt b hb)

theorem hexFragments_encode_regedit (bytes : List Nat)
    (hlt : ∀ b ∈ bytes, b < 256)
    (hb : PyStr) (rest : List PyStr) (hmap : bytes.map byteToHex = hb :: rest) :
    hexFragments (regeditWrap rest (7 + hb.length) (strOf "hex(7):" ++ hb))
      = bytes.map byteToHex := by
  have hgood : ∀ g ∈ bytes.map byteToHex,
      g ≠ [] ∧ ∀ c ∈ g, isSpace c = false ∧ c ≠ 92 ∧ c ≠ 44 := by
    intro g hg
    rcases List.mem_map.mp hg with ⟨b, hbm, rfl⟩
    exact byteToHex_good b (hlt b hbm)
  have hbgood := hgood hb (hmap ▸ List.mem_cons_self hb rest)
  have hrgood : ∀ g ∈ rest,
      g ≠ [] ∧ ∀ c ∈ g, isSpace c = false ∧ c ≠ 92 ∧ c ≠ 44 :=
    fun g hg => hgood g (hmap ▸ List.mem_cons_of_mem hb hg)
  have hacc := regeditWrap_acc rest (7 + hb.length) (strOf "hex(7):" ++ hb) []
  rw [List.append_nil] at hacc
  rw [hacc, List.append_assoc]
  unfold hexFragments
  rw [stripTag_tagged]
  have hdrop : (hb ++ regeditWrap rest (7 + hb.length) []).dropWhile isSpace
      = hb ++ regeditWrap rest (7 + hb.length) [] := by
    match hb, hbgood.1 with
    | c :: hb', _ =>
      rw [List.cons_append, List.dropWhile_cons]
      rw [(hbgood.2 c (List.mem_cons_self c hb')).1]
      simp
  rw [hdrop, removeContinuations_append hb _ (fun hm =>
    (hbgood.2 92 hm).2.1 rfl)]
  rw [rc_wrapTail rest (7 + hb.length) (fun g hg => by
    obtain ⟨hgne, hgc⟩ := hrgood g hg
    refine ⟨hgne, ?_, fun hm => (hgc 92 hm).2.1 rfl⟩
    match g, hgne with
    | c :: g', _ => exact (hgc c (List.mem_cons_self c g')).1)]
  rw [← pyJoin_cons_flatten 44 hb rest, ← hmap]
  exact fragments_pipeline (bytes.map byteToHex) (by
    intro hmm
    rw [hmm] at hmap
    simp at hmap) hgood

theorem decodeBytes_strBytes (L : List PyStr) (hne : L ≠ [])
    (hs : ∀ s ∈ L, s ≠ []) (hz : ∀ s ∈ L, 0 ∉ s)
    (hv : ∀ s ∈ L, ∀ c ∈ s, isValidScalar c = true) :
    decodeBytes (strBytes (combinedString L)) = .ok L := by
  unfold decodeBytes strBytes
  rw [bytesToUnits_unitsBytes (strUnits (combinedString L))]
  show (match unitsToCodePoints (strUnits (combinedString L)) with
    | Except.error e => Except.error e
    | Except.ok cps =>
      Except.ok (List.filter (fun t => t ≠ [])
        (pySplit 0 (rstripNulls cps)))) = _
  rw [unitsToCodePoints_strUnits (combinedString L) (combined_valid L hv)]
  show Except.ok _ = _
  unfold combinedString
  rw [decode_multisz_tail L hne hs hz]

theorem decode_encode_both (L : List PyStr) (hne : L ≠ [])
    (hs : ∀ s ∈ L, s ≠ []) (hz : ∀ s ∈ L, 0 ∉ s)
    (hv : ∀ s ∈ L, ∀ c ∈ s, isValidScalar c = true) :
    (∃ out, encode_to_hex_string L (strOf "compact") = .ok out ∧
      decode_hex_string out = .ok L) ∧
    (∃ out, encode_to_hex_string L (strOf "regedit") = .ok out ∧
      decode_hex_string out = .ok L) := by
  have hvc := combined_valid L hv
  have henc : utf16leEncode (combinedString L)
      = .ok (strBytes (combinedString L)) := utf16leEncode_eq _ hvc
  have hlt : ∀ b ∈ strBytes (combinedString L), b < 256 := strBytes_lt _ hvc
  have hbne : strBytes (combinedString L) ≠ [] := by
    apply strBytes_ne_nil
    unfold combinedString
    simp
  constructor
  · refine ⟨_, encode_compact_eq L _ hne henc, ?_⟩
    unfold decode_hex_string
    rw [hexFragments_encode_compact _ hbne hlt,
      parseFragments_map_byteToHex _ hlt]
    show decodeBytes (strBytes (combinedString L)) = _
    exact decodeBytes_strBytes L hne hs hz hv
  · match hmap : (strBytes (combinedString L)).map byteToHex with
    | [] =>
      exfalso
      rw [List.map_eq_nil] at hmap
      exact hbne hmap
    | hb :: rest =>
      refine ⟨_, encode_regedit_eq L _ hne henc hb rest hmap, ?_⟩
      unfold decode_hex_string
      rw [hexFragments_encode_regedit _ hlt hb rest hmap,
        parseFragments_map_byteToHex _ hlt]
      show decodeBytes (strBytes (combinedString L)) = _
      exact decodeBytes_strBytes L hne hs hz hv

/-! ## Support for the remaining claims -/

theorem removeMarkers_id (s : PyStr) (h : 92 ∉ s) : removeMarkers s = s := by
  have := removeMarkers_append s [] h
  simpa [rm_nil] using this

theorem utf16leEncodeCp_bytes_lt (cp : Nat) (bs : List Nat)
    (h : utf16leEncodeCp cp = .ok bs) : ∀ b ∈ bs, b < 256 := by
  unfold utf16leEncodeCp at h
  by_cases h1 : isHighSurrogate cp ∨ isLowSurrogate cp
  · rw [if_pos h1] at h
    exact absurd h (by simp)
  · rw [if_neg h1] at h
    by_cases h2 : cp < 65536
    · rw [if_pos h2] at h
      have hbs : bs = [cp % 256, cp / 256] := by
        have := h.symm
        simpa using this
      subst hbs
      intro b hb
      simp only [List.mem_cons, List.not_mem_nil, or_false] at hb
      rcases hb with hb | hb <;> omega
    · rw [if_neg h2] at h
      by_cases h3 : cp < 1114112
      · rw [if_pos h3] at h
        have hbs : bs = [(55296 + (cp - 65536) / 1024) % 256,
            (55296 + (cp - 65536) / 1024) / 256,
            (56320 + (cp - 65536) % 1024) % 256,
            (56320 + (cp - 65536) % 1024) / 256] := by
          have := h.symm
          simpa using this
        subst hbs
        intro b hb
        simp only [List.mem_cons, List.not_mem_nil, or_false] at hb
        rcases hb with hb | hb | hb | hb <;> omega
      · rw [if_neg h3] at h
        exact absurd h (by simp)

theorem utf16leEncode_bytes_lt (s : PyStr) :
    ∀ bs, utf16leEncode s = .ok bs → ∀ b ∈ bs, b < 256 := by
  induction s with
  | nil =>
    intro bs h
    have hbs : bs = [] := by
      have : Except.ok ([] : List Nat) = Except.ok bs := h
      simpa using this
    subst hbs
    simp
  | cons c cs ih =>
    intro bs h
    show ∀ b ∈ bs, b < 256
    rw [show utf16leEncode (c :: cs)
      = (match utf16leEncodeCp c with
        | Except.error e => Except.error e
        | Except.ok b1 =>
          match utf16leEncode cs with
          | Except.error e => Except.error e
          | Except.ok rest => Except.ok (b1 ++ rest)) from rfl] at h
    match hcp : utf16leEncodeCp c with
    | .error e =>
      rw [hcp] at h
      exact absurd h (by simp)
    | .ok b1 =>
      rw [hcp] at h
      match hrest : utf16leEncode cs with
      | .error e =>
        rw [hrest] at h
        exact absurd h (by simp)
      | .ok rest =>
        rw [hrest] at h
        have hbs : bs = b1 ++ rest := by
          have := h.symm
          simpa using this
        subst hbs
        intro b hb
        rcases List.mem_append.mp hb with hm | hm
        · exact utf16leEncodeCp_bytes_lt c b1 hcp b hm
        · exact ih rest hrest b hm

theorem bytesToUnits_odd_aux (n : Nat) :
    ∀ bs : List Nat, bs.length ≤ n → bs.length % 2 = 1 →
      bytesToUnits bs = .error .oddByteLength := by
  induction n with
  | zero =>
    intro bs hlen hodd
    have : bs.length = 0 := by omega
    omega
  | succ n ih =>
    intro bs hlen hodd
    match bs with
    | [] => simp at hodd
    | [b] => rfl
    | b0 :: b1 :: rest =>
      show (match bytesToUnits rest with
        | Except.error e => Except.error e
        | Except.ok us => Except.ok ((b0 + 256 * b1) :: us)) = _
      rw [ih rest (by simp at hlen ⊢; omega) (by simp at hodd ⊢; omega)]

theorem bytesToUnits_odd (bs : List Nat) (hodd : bs.length % 2 = 1) :
    bytesToUnits bs = .error .oddByteLength :=
  bytesToUnits_odd_aux bs.length bs (Nat.le_refl _) hodd

theorem parseByteFragment_none (g : PyStr) (hp : pyIntHex g = none) :
    parseByteFragment g = .error (.invalidHex g) := by
  unfold parseByteFragment
  rw [hp]

theorem parseByteFragment_some_in (g : PyStr) (v : Int) (hp : pyIntHex g = some v)
    (hr : 0 ≤ v ∧ v < 256) : parseByteFragment g = .ok v.toNat := by
  unfold parseByteFragment
  rw [hp]
  show (if 0 ≤ v ∧ v < 256 then Except.ok v.toNat
    else Except.error (FormatError.invalidHex g)) = _
  rw [if_pos hr]

theorem parseByteFragment_some_out (g : PyStr) (v : Int) (hp : pyIntHex g = some v)
    (hr : ¬ (0 ≤ v ∧ v < 256)) :
    parseByteFragment g = .error (.invalidHex g) := by
  unfold parseByteFragment
  rw [hp]
  show (if 0 ≤ v ∧ v < 256 then Except.ok v.toNat
    else Except.error (FormatError.invalidHex g)) = _
  rw [if_neg hr]

theorem parseByteFragment_error (g : PyStr) (e : FormatError)
    (h : parseByteFragment g = .error e) : e = .invalidHex g := by
  match hp : pyIntHex g with
  | none =>
    rw [parseByteFragment_none g hp] at h
    injection h with h2
    exact h2.symm
  | some v =>
    by_cases hr : 0 ≤ v ∧ v < 256
    · rw [parseByteFragment_some_in g v hp hr] at h
      exact absurd h (by simp)
    · rw [parseByteFragment_some_out g v hp hr] at h
      injection h with h2
      exact h2.symm

theorem parseFragments_cons (g : PyStr) (gs : List PyStr) :
    parseFragments (g :: gs) =
      match parseByteFragment g with
      | Except.error e => Except.error e
      | Except.ok b =>
        match parseFragments gs with
        | Except.error e => Except.error e
        | Except.ok bs => Except.ok (b :: bs) := rfl

theorem parseFragments_error_of_mem (fs : List PyStr) (f : PyStr)
    (hf : f ∈ fs) (e : FormatError) (he : parseByteFragment f = .error e) :
    ∃ f2, f2 ∈ fs ∧ parseFragments fs = .error (.invalidHex f2) := by
  induction fs with
  | nil => simp at hf
  | cons g gs ih =>
    match hg : parseByteFragment g with
    | .error e2 =>
      refine ⟨g, List.mem_cons_self g gs, ?_⟩
      have hpf : parseFragments (g :: gs) = .error e2 := by
        rw [parseFragments_cons, hg]
      rw [hpf, parseByteFragment_error g e2 hg]
    | .ok b =>
      have hfgs : f ∈ gs := by
        rcases List.mem_cons.mp hf with hfg | hm
        · rw [hfg, hg] at he
          exact absurd he (by simp)
        · exact hm
      obtain ⟨f2, hf2, hpf⟩ := ih hfgs
      refine ⟨f2, List.mem_cons_of_mem g hf2, ?_⟩
      rw [parseFragments_cons, hg, hpf]

theorem hexDigit_char_props (c : Nat) (h : hexDigitVal c ≠ none) :
    toLowerAscii c ≠ 104 ∧ isSpace c = false ∧ c ≠ 92 ∧ c ≠ 44 := by
  unfold hexDigitVal at h
  by_cases h1 : 48 ≤ c ∧ c ≤ 57
  · refine ⟨?_, isSpace_false_mid c (by omega) (by omega), by omega, by omega⟩
    unfold toLowerAscii
    split <;> omega
  · rw [if_neg h1] at h
    by_cases h2 : 97 ≤ c ∧ c ≤ 102
    · refine ⟨?_, isSpace_false_mid c (by omega) (by omega), by omega, by omega⟩
      unfold toLowerAscii
      split <;> omega
    · rw [if_neg h2] at h
      by_cases h3 : 65 ≤ c ∧ c ≤ 70
      · refine ⟨?_, isSpace_false_mid c (by omega) (by omega), by omega, by omega⟩
        unfold toLowerAscii
        split <;> omega
      · rw [if_neg h3] at h
        exact absurd rfl h

theorem hexFragments_join (gs : List PyStr) (hne : gs ≠ [])
    (hgood : ∀ g ∈ gs, g ≠ [] ∧ ∀ c ∈ g, hexDigitVal c ≠ none) :
    hexFragments (pyJoin [44] gs) = gs := by
  have hchar : ∀ g ∈ gs, ∀ c ∈ g,
      toLowerAscii c ≠ 104 ∧ isSpace c = false ∧ c ≠ 92 ∧ c ≠ 44 :=
    fun g hg c hc => hexDigit_char_props c ((hgood g hg).2 c hc)
  have h92 : 92 ∉ pyJoin [44] gs := by
    intro hm
    rcases pyJoin_mem [44] gs 92 hm with hs | ⟨g, hg, hc⟩
    · simp at hs
    · exact (hchar g hg 92 hc).2.2.1 rfl
  rw [hexFragments_no_backslash _ h92]
  have hst : stripTag (pyJoin [44] gs) = pyJoin [44] gs := by
    match gs, hne with
    | g :: gs', _ =>
      match g, (hgood g (List.mem_cons_self g gs')).1 with
      | c :: g', _ =>
        rw [pyJoin_cons_flatten, List.cons_append,
          stripTag_cons_ne c _
            (hchar _ (List.mem_cons_self _ gs') c (List.mem_cons_self c g')).1,
          ← List.cons_append, ← pyJoin_cons_flatten]
  rw [hst]
  have hws : removeWhitespace (pyJoin [44] gs) = pyJoin [44] gs := by
    apply removeWhitespace_id
    intro c hc
    rcases pyJoin_mem [44] gs c hc with hs | ⟨g, hg, hcg⟩
    · simp at hs
      rw [hs]
      exact isSpace_false_mid 44 (by omega) (by omega)
    · exact (hchar g hg c hcg).2.1
  rw [hws, pySplit_pyJoin 44 gs hne (fun g hg hcg =>
    (hchar g hg 44 hcg).2.2.2 rfl)]
  exact List.filter_eq_self.mpr (fun g hg => by simp [(hgood g hg).1])

/-! ## The claims -/

/-- C1: for every non-empty list of non-empty strings that contain no null
code unit (and are well-formed text, i.e. sequences of Unicode scalar
values), decoding the encoding returns the list exactly, both for the
compact style and for the wrapped (regedit) style. -/
theorem claim_C1_round_trip (L : List PyStr) (hne : L ≠ [])
    (hs : ∀ s ∈ L, s ≠ []) (hz : ∀ s ∈ L, (0 : Nat) ∉ s)
    (hv : ∀ s ∈ L, ∀ c ∈ s, isValidScalar c = true) :
    (∃ out, encode_to_hex_string L (strOf "compact") = .ok out ∧
      decode_hex_string out = .ok L) ∧
    (∃ out, encode_to_hex_string L (strOf "regedit") = .ok out ∧
      decode_hex_string out = .ok L) :=
  decode_encode_both L hne hs hz hv

/-- Witness for C1 at the one-element list ["A"]. -/
theorem claim_C1_witness :
    (∃ out, encode_to_hex_string [[65]] (strOf "compact") = .ok out ∧
      decode_hex_string out = .ok [[65]]) ∧
    (∃ out, encode_to_hex_string [[65]] (strOf "regedit") = .ok out ∧
      decode_hex_string out = .ok [[65]]) :=
  claim_C1_round_trip [[65]] (by decide) (by decide) (by decide) (by decide)

/-- C6: encode called with an empty list fails with FormatError.emptyInput
for every style string, producing no output. -/
theorem claim_C6_empty_input (style : PyStr) :
    encode_to_hex_string [] style = .error .emptyInput := by
  unfold encode_to_hex_string
  rw [if_pos rfl]

/-- Witness for C6 at the style "bogus". -/
theorem claim_C6_witness :
    encode_to_hex_string [] (strOf "bogus") = .error .emptyInput :=
  claim_C6_empty_input (strOf "bogus")

/-- C7: encode(["Arial"], compact) returns exactly
hex(7):41,00,72,00,69,00,61,00,6c,00,00,00,00,00 and decode of that exact
string returns ["Arial"]. -/
theorem claim_C7_concrete_arial :
    encode_to_hex_string [strOf "Arial"] (strOf "compact")
      = .ok (strOf "hex(7):41,00,72,00,69,00,61,00,6c,00,00,00,00,00") ∧
    decode_hex_string
        (strOf "hex(7):41,00,72,00,69,00,61,00,6c,00,00,00,00,00")
      = .ok [strOf "Arial"] := by
  constructor
  · rfl
  · unfold decode_hex_string
    rw [hexFragments_no_backslash _ (by decide)]
    rfl

/-- C9: encode does not validate that entries are non-empty: both the list
containing one empty string and the empty string promoted to a one-element
list encode to hex(7):00,00,00,00, and decoding that output returns the
empty list, which differs from the encoded list, so the round trip is broken
for empty entries. -/
theorem claim_C9_empty_entry :
    encode_to_hex_string [[]] (strOf "compact")
      = .ok (strOf "hex(7):00,00,00,00") ∧
    encode_str [] (strOf "compact") = .ok (strOf "hex(7):00,00,00,00") ∧
    decode_hex_string (strOf "hex(7):00,00,00,00") = .ok ([] : List PyStr) ∧
    ([] : List PyStr) ≠ [[]] := by
  refine ⟨rfl, rfl, ?_, by decide⟩
  unfold decode_hex_string
  rw [hexFragments_no_backslash _ (by decide)]
  rfl

theorem encode_regedit_eq_nil (L : List PyStr) (bytes : List Nat) (hne : L ≠ [])
    (henc : utf16leEncode (combinedString L) = .ok bytes)
    (hmap : bytes.map byteToHex = []) :
    encode_to_hex_string L (strOf "regedit") = .ok (strOf "hex(7):") := by
  unfold encode_to_hex_string
  rw [if_neg hne, henc]
  show (if strOf "regedit" = strOf "compact" then _
    else if strOf "regedit" = strOf "regedit" then
      match bytes.map byteToHex with
      | [] => Except.ok (strOf "hex(7):")
      | hb :: rest =>
        Except.ok (regeditWrap rest (7 + hb.length) (strOf "hex(7):" ++ hb))
    else _) = _
  rw [if_neg (by decide), if_pos rfl, hmap]

/-- C2 counterexample: for the single entry of twelve letters A, the wrapped
output has two physical lines of lengths 77 and 16: the first line, which
ends with the two-character continuation marker, exceeds 75 characters. -/
theorem claim_C2_counterexample :
    (encode_to_hex_string [strOf "AAAAAAAAAAAA"] (strOf "regedit")).map
      (fun w => (linesOf w).map List.length) = .ok [77, 16] := by
  rfl

/-- C2 as amended: counting the trailing continuation marker as part of its
line, every physical line of the wrapped output is at most 77 characters
long (75 characters of budgeted content plus the two marker characters);
the stated bound of 75 holds only before the marker is appended. -/
theorem claim_C2_amended (L : List PyStr) (w : PyStr)
    (h : encode_to_hex_string L (strOf "regedit") = .ok w) :
    ∀ l ∈ linesOf w, l.length ≤ 77 := by
  by_cases hne : L = []
  · subst hne
    unfold encode_to_hex_string at h
    rw [if_pos rfl] at h
    exact absurd h (by simp)
  · match henc : utf16leEncode (combinedString L) with
    | .error e =>
      unfold encode_to_hex_string at h
      rw [if_neg hne, henc] at h
      exact absurd h (by simp)
    | .ok bytes =>
      have hgs : ∀ g ∈ bytes.map byteToHex, g.length = 2 ∧ (10 : Nat) ∉ g := by
        intro g hg
        rcases List.mem_map.mp hg with ⟨b, _, rfl⟩
        refine ⟨rfl, ?_⟩
        intro hm
        unfold byteToHex at hm
        simp only [List.mem_cons, List.not_mem_nil, or_false] at hm
        rcases hm with hm | hm
        · exact toHexDigit_ne_nl (b / 16) hm.symm
        · exact toHexDigit_ne_nl (b % 16) hm.symm
      match hmap : bytes.map byteToHex with
      | [] =>
        rw [encode_regedit_eq_nil L bytes hne henc hmap] at h
        injection h with hw
        subst hw
        decide
      | hb :: rest =>
        rw [encode_regedit_eq L bytes hne henc hb rest hmap] at h
        injection h with hw
        subst hw
        intro l hl
        have hhb := hgs hb (hmap ▸ List.mem_cons_self hb rest)
        refine wrap_lines_bound rest (7 + hb.length) (strOf "hex(7):" ++ hb)
          [] (strOf "hex(7):" ++ hb)
          (fun g hg => hgs g (hmap ▸ List.mem_cons_of_mem hb hg))
          ?_ (by simp) ?_ (by omega) l hl
        · rw [pySplit_nosep 10 _ ?_]
          · rfl
          · intro hm
            rcases List.mem_append.mp hm with hm | hm
            · revert hm
              decide
            · exact hhb.2 hm
        · have h7 : (strOf "hex(7):").length = 7 := rfl
          simp [List.length_append, h7]

/-- Witness for C2 as amended, at the one-element list ["A"], whose wrapped
output is a single line. -/
theorem claim_C2_witness :
    encode_to_hex_string [[65]] (strOf "regedit")
      = .ok (strOf "hex(7):41,00,00,00,00,00") ∧
    (strOf "hex(7):41,00,00,00,00,00").length ≤ 77 := by
  refine ⟨rfl, ?_⟩
  exact claim_C2_amended [[65]] (strOf "hex(7):41,00,00,00,00,00") rfl
    (strOf "hex(7):41,00,00,00,00,00") (by decide)

/-- C3 counterexample: prefixing the tag with a single space makes decode
fail on the fragment containing the unstripped tag, while the same input
without the prefix decodes to ["A"]; so decode does not accept a whitespace
prefix before the hex(7): tag. -/
theorem claim_C3_counterexample :
    decode_hex_string (strOf " hex(7):41,00,00,00")
      = .error (.invalidHex (strOf "hex(7):41")) ∧
    decode_hex_string (strOf "hex(7):41,00,00,00") = .ok [strOf "A"] := by
  constructor
  · unfold decode_hex_string
    rw [hexFragments_no_backslash _ (by decide)]
    rfl
  · unfold decode_hex_string
    rw [hexFragments_no_backslash _ (by decide)]
    rfl

/-- C3 as amended: the anchored tag regex strips the tag only at the very
start of the input, so while decode of a tagged encoding succeeds, for every
non-empty whitespace prefix p the tag of p + h is not stripped and decode
fails with a FormatError carrying the tag-bearing fragment instead of
returning decode(h). -/
theorem claim_C3_amended (p : PyStr) (hne : p ≠ [])
    (hsp : ∀ c ∈ p, isSpace c = true) :
    decode_hex_string (p ++ strOf "hex(7):41,00,00,00")
      = .error (.invalidHex (strOf "hex(7):41")) ∧
    decode_hex_string (strOf "hex(7):41,00,00,00") = .ok [strOf "A"] := by
  have hp92 : 92 ∉ p := by
    intro hm
    have := hsp 92 hm
    revert this
    decide
  have h92 : 92 ∉ p ++ strOf "hex(7):41,00,00,00" := by
    intro hm
    rcases List.mem_append.mp hm with hm | hm
    · exact hp92 hm
    · revert hm
      decide
  have hst : stripTag (p ++ strOf "hex(7):41,00,00,00")
      = p ++ strOf "hex(7):41,00,00,00" := by
    match p, hne with
    | c :: p', _ =>
      rw [List.cons_append]
      apply stripTag_cons_ne
      have hc := hsp c (List.mem_cons_self c p')
      simp only [isSpace, decide_eq_true_eq] at hc
      unfold toLowerAscii
      split <;> omega
  constructor
  · unfold decode_hex_string hexFragments
    rw [hst, removeContinuations_id _ h92, removeTrailingBackslash_id _ h92]
    have hws : removeWhitespace (p ++ strOf "hex(7):41,00,00,00")
        = removeWhitespace (strOf "hex(7):41,00,00,00") := by
      unfold removeWhitespace
      rw [List.filter_append]
      rw [List.filter_eq_nil.mpr (fun c hc => by simp [hsp c hc])]
      rw [List.nil_append]
    rw [hws]
    rfl
  · unfold decode_hex_string
    rw [hexFragments_no_backslash _ (by decide)]
    rfl

/-- Witness for C3 as amended, at the prefix of one space. -/
theorem claim_C3_witness :
    decode_hex_string ([32] ++ strOf "hex(7):41,00,00,00")
      = .error (.invalidHex (strOf "hex(7):41")) ∧
    decode_hex_string (strOf "hex(7):41,00,00,00") = .ok [strOf "A"] :=
  claim_C3_amended [32] (by decide) (by decide)

/-- C5: whenever the parsed byte buffer has odd length, decode fails with
the odd-byte-length FormatError; in particular decode("hex(7):41") fails. -/
theorem claim_C5_odd_byte_length :
    (∀ (s : PyStr) (bytes : List Nat),
      parseFragments (hexFragments s) = .ok bytes →
      bytes.length % 2 = 1 →
      decode_hex_string s = .error .oddByteLength) ∧
    decode_hex_string (strOf "hex(7):41") = .error .oddByteLength := by
  constructor
  · intro s bytes hp hodd
    unfold decode_hex_string
    rw [hp]
    show decodeBytes bytes = _
    unfold decodeBytes
    rw [bytesToUnits_odd bytes hodd]
  · unfold decode_hex_string
    rw [hexFragments_no_backslash _ (by decide)]
    rfl

/-- Witness for C5 at the single odd byte group 41. -/
theorem claim_C5_witness :
    decode_hex_string (strOf "hex(7):41") = .error .oddByteLength :=
  claim_C5_odd_byte_length.1 (strOf "hex(7):41") [65]
    (by
      rw [hexFragments_no_backslash _ (by decide)]
      rfl)
    (by decide)

/-- C10: decode does not require the hex(7): tag: an input that is just
comma-separated valid hex byte groups decodes as the corresponding bytes;
concretely, decode("41,00,00,00") succeeds and returns ["A"]. -/
theorem claim_C10_no_tag :
    (∀ (gs : List PyStr) (bytes : List Nat) (L : List PyStr),
      gs ≠ [] →
      (∀ g ∈ gs, g ≠ [] ∧ ∀ c ∈ g, hexDigitVal c ≠ none) →
      parseFragments gs = .ok bytes →
      decodeBytes bytes = .ok L →
      decode_hex_string (pyJoin [44] gs) = .ok L) ∧
    decode_hex_string (strOf "41,00,00,00") = .ok [strOf "A"] := by
  constructor
  · intro gs bytes L hne hgood hp hd
    unfold decode_hex_string
    rw [hexFragments_join gs hne hgood, hp]
    exact hd
  · unfold decode_hex_string
    rw [hexFragments_no_backslash _ (by decide)]
    rfl

/-- Witness for C10 at the untagged groups 41,00,00,00. -/
theorem claim_C10_witness :
    decode_hex_string (pyJoin [44] [[52, 49], [48, 48], [48, 48], [48, 48]])
      = .ok [[65]] :=
  claim_C10_no_tag.1 [[52, 49], [48, 48], [48, 48], [48, 48]] [65, 0, 0, 0]
    [[65]] (by decide) (by decide) rfl rfl

/-- C4 counterexample: the fragments 0x41 and +41 are not two hex digits,
yet decode accepts them (CPython int(s, 16) accepts a 0x prefix and a sign),
decoding both inputs to ["A"] instead of failing. -/
theorem claim_C4_counterexample :
    decode_hex_string (strOf "hex(7):0x41,00,00,00") = .ok [strOf "A"] ∧
    decode_hex_string (strOf "hex(7):+41,00,00,00") = .ok [strOf "A"] := by
  constructor
  · unfold decode_hex_string
    rw [hexFragments_no_backslash _ (by decide)]
    rfl
  · unfold decode_hex_string
    rw [hexFragments_no_backslash _ (by decide)]
    rfl

/-- C4 as amended: decode fails with a FormatError carrying an offending
fragment whenever some comma-separated fragment is rejected by int(-, 16) or
parses outside the byte range 00-FF (so zz and 100 are decode errors and
nothing is silently skipped), but a fragment need not be exactly two hex
digits: forms such as 0x41 and +41 are accepted with value 0x41. -/
theorem claim_C4_amended :
    (∀ (s : PyStr) (f : PyStr) (e : FormatError),
      f ∈ hexFragments s → parseByteFragment f = .error e →
      ∃ f2, f2 ∈ hexFragments s ∧
        decode_hex_string s = .error (.invalidHex f2)) ∧
    parseByteFragment (strOf "zz") = .error (.invalidHex (strOf "zz")) ∧
    parseByteFragment (strOf "100") = .error (.invalidHex (strOf "100")) ∧
    parseByteFragment (strOf "0x41") = .ok 65 ∧
    parseByteFragment (strOf "+41") = .ok 65 := by
  refine ⟨?_, rfl, rfl, rfl, rfl⟩
  intro s f e hf he
  obtain ⟨f2, hf2, hpf⟩ := parseFragments_error_of_mem (hexFragments s) f hf e he
  refine ⟨f2, hf2, ?_⟩
  unfold decode_hex_string
  rw [hpf]

/-- Witness for C4 as amended at decode("hex(7):zz,00"). -/
theorem claim_C4_witness :
    ∃ f2, f2 ∈ hexFragments (strOf "hex(7):zz,00") ∧
      decode_hex_string (strOf "hex(7):zz,00")
        = .error (.invalidHex f2) :=
  claim_C4_amended.1 (strOf "hex(7):zz,00") (strOf "zz")
    (.invalidHex (strOf "zz"))
    (by
      rw [hexFragments_no_backslash _ (by decide)]
      decide)
    rfl

/-- C8: deleting the continuation decoration (the backslash, newline and
two-space indent of each continuation marker; the marker's comma is the
byte-group separator the compact style shares) and any remaining whitespace
from the wrapped output yields exactly the compact output for the same
list: both styles render the identical comma-joined byte groups after the
identical hex(7): tag. -/
theorem claim_C8_wrapped_strips_to_compact (L : List PyStr) (w c : PyStr)
    (hw : encode_to_hex_string L (strOf "regedit") = .ok w)
    (hc : encode_to_hex_string L (strOf "compact") = .ok c) :
    removeWhitespace (removeMarkers w) = c := by
  by_cases hne : L = []
  · subst hne
    unfold encode_to_hex_string at hw
    rw [if_pos rfl] at hw
    exact absurd hw (by simp)
  · match henc : utf16leEncode (combinedString L) with
    | .error e =>
      unfold encode_to_hex_string at hw
      rw [if_neg hne, henc] at hw
      exact absurd hw (by simp)
    | .ok bytes =>
      have hlt := utf16leEncode_bytes_lt (combinedString L) bytes henc
      rw [encode_compact_eq L bytes hne henc] at hc
      injection hc with hc2
      subst hc2
      match hmap : bytes.map byteToHex with
      | [] =>
        rw [encode_regedit_eq_nil L bytes hne henc hmap] at hw
        injection hw with hw2
        subst hw2
        rw [removeMarkers_id _ (by decide),
          removeWhitespace_id _ (by decide)]
        simp [pyJoin]
      | hb :: rest =>
        rw [encode_regedit_eq L bytes hne henc hb rest hmap] at hw
        injection hw with hw2
        subst hw2
        have hgood92 : ∀ g ∈ bytes.map byteToHex, 92 ∉ g := by
          intro g hg
          rcases List.mem_map.mp hg with ⟨b, hbm, rfl⟩
          intro hm
          exact (byteToHex_clean b 92 (hlt b hbm) hm).2.1 rfl
        have hacc := regeditWrap_acc rest (7 + hb.length)
          (strOf "hex(7):" ++ hb) []
        rw [List.append_nil] at hacc
        rw [hacc]
        have htag92 : 92 ∉ strOf "hex(7):" ++ hb := by
          intro hm
          rcases List.mem_append.mp hm with hm | hm
          · revert hm
            decide
          · exact hgood92 hb (hmap ▸ List.mem_cons_self hb rest) hm
        rw [removeMarkers_append _ _ htag92,
          rm_wrapTail rest _
            (fun g hg => hgood92 g (hmap ▸ List.mem_cons_of_mem hb hg))]
        have hjoin : (strOf "hex(7):" ++ hb)
            ++ (rest.map (fun x => 44 :: x)).flatten
            = strOf "hex(7):" ++ pyJoin [44] (hb :: rest) := by
          rw [pyJoin_cons_flatten]
          simp [List.append_assoc]
        rw [hjoin, ← hmap]
        apply removeWhitespace_id
        have htagws : ∀ x ∈ strOf "hex(7):", isSpace x = false := by decide
        intro ch hch
        rcases List.mem_append.mp hch with hm | hm
        · exact htagws ch hm
        · rcases pyJoin_mem [44] _ ch hm with hs | ⟨g, hg, hcg⟩
          · simp at hs
            rw [hs]
            exact isSpace_false_mid 44 (by omega) (by omega)
          · rcases List.mem_map.mp hg with ⟨b, hbm, rfl⟩
            exact (byteToHex_clean b ch (hlt b hbm) hcg).1

/-- Witness for C8 at the one-element list of twelve letters A, whose
wrapped form has one continuation. -/
theorem claim_C8_witness :
    removeWhitespace (removeMarkers (strOf "hex(7):41,00,41,00,41,00,41,00,41,00,41,00,41,00,41,00,41,00,41,00,41,00,41,\\\n  00,00,00,00,00"))
      = strOf "hex(7):41,00,41,00,41,00,41,00,41,00,41,00,41,00,41,00,41,00,41,00,41,00,41,00,00,00,00,00" :=
  claim_C8_wrapped_strips_to_compact [strOf "AAAAAAAAAAAA"] _ _ rfl rfl
